import Mathlib

/-!
Verification of the retrieval/summarization/agent core of the
Firefox-profiler-assistant repository.  Python sources are shallowly
embedded: strings become `List Char`, Python ints become `Int`/`Nat`,
float arithmetic is modelled over exact fields (`ℚ`/`ℝ`), dicts become
association structures, and raised exceptions become `Except` values.
-/

/-- Decidable equality for `Except`, used to evaluate the embedded
fallible operations on concrete inputs. -/
instance {e : Type} {a : Type} [DecidableEq e] [DecidableEq a] :
    DecidableEq (Except e a)
  | .error x, .error y =>
      match decEq x y with
      | isTrue h => isTrue (h ▸ rfl)
      | isFalse h => isFalse fun hc => h (Except.error.inj hc)
  | .ok x, .ok y =>
      match decEq x y with
      | isTrue h => isTrue (h ▸ rfl)
      | isFalse h => isFalse fun hc => h (Except.ok.inj hc)
  | .error _, .ok _ => isFalse fun hc => Except.noConfusion hc
  | .ok _, .error _ => isFalse fun hc => Except.noConfusion hc

/-! ## String model (Python `str` as `List Char`) -/

/-- A Python string, modelled as its list of characters. -/
abbrev Str := List Char

/-- Coerce a Lean string literal into the model. -/
def str (s : String) : Str := s.toList

/-- Python slicing `s[a:b]` for `0 ≤ a`, `0 ≤ b` (clamping built in). -/
def sliceL (s : Str) (a b : Nat) : Str := (s.take b).drop a

/-- Python whitespace characters recognised by `str.strip` (ASCII subset). -/
def pyIsSpace (c : Char) : Bool :=
  c = ' ' || c = '\t' || c = '\n' || c = '\r' || c = '\x0b' || c = '\x0c'

/-- Python `str.strip()`. -/
def pyStrip (s : Str) : Str :=
  ((s.dropWhile pyIsSpace).reverse.dropWhile pyIsSpace).reverse

theorem sliceL_cons_succ (c : Char) (t : Str) (a b : Nat) :
    sliceL (c :: t) (a + 1) (b + 1) = sliceL t a b := by
  simp [sliceL]

theorem sliceL_append_shift (u v : Str) (a b : Nat) :
    sliceL (u ++ v) (u.length + a) (u.length + b) = sliceL v a b := by
  induction u with
  | nil => simp
  | cons c t ih =>
      have : (c :: t).length + a = (t.length + a) + 1 := by
        simp [Nat.succ_add]
      simp only [List.cons_append, List.length_cons]
      have h1 : t.length + 1 + a = (t.length + a) + 1 := by omega
      have h2 : t.length + 1 + b = (t.length + b) + 1 := by omega
      rw [h1, h2, sliceL_cons_succ, ih]

/-! ## Citation extraction (`rag/summarizers/base.py`, `extract_citations`) -/

/-- Split a list at the first occurrence of character `c`:
returns the part before and the part after it. -/
def splitAtChar (c : Char) : Str → Option (Str × Str)
  | [] => none
  | x :: t =>
      if x = c then some ([], t)
      else (splitAtChar c t).map (fun p => (x :: p.1, p.2))

theorem splitAtChar_some_eq {c : Char} :
    ∀ {s a b : Str}, splitAtChar c s = some (a, b) → s = a ++ c :: b := by
  intro s
  induction s with
  | nil => intro a b h; simp [splitAtChar] at h
  | cons x t ih =>
      intro a b h
      by_cases hx : x = c
      · simp [splitAtChar, hx] at h
        obtain ⟨ha, hb⟩ := h
        subst ha; subst hb; subst hx; rfl
      · rw [splitAtChar, if_neg hx] at h
        cases hsp : splitAtChar c t with
        | none => rw [hsp] at h; simp at h
        | some pq =>
            obtain ⟨p, q⟩ := pq
            rw [hsp] at h
            simp at h
            obtain ⟨h1, h2⟩ := h
            subst h1; subst h2
            have := ih hsp
            simp [this]

theorem splitAtChar_some_length {c : Char} {s a b : Str}
    (h : splitAtChar c s = some (a, b)) : b.length < s.length := by
  have := splitAtChar_some_eq h
  subst this
  simp only [List.length_append, List.length_cons]
  omega

/-- One extracted citation: the id together with its `(start, stop)`
character offsets into the scanned string. -/
structure Citation where
  id : Str
  start : Nat
  stop : Nat
deriving DecidableEq, Repr

/-- The scanning loop of `extract_citations`, carrying the absolute
position `pos` of the head of the remaining text.  The `fuel` argument
only makes the recursion structural; any `fuel ≥ s.length` gives the
loop's exact behaviour (the text shrinks at every step). -/
def extractFuel : Nat → Str → Nat → List Citation
  | 0, _, _ => []
  | _, [], _ => []
  | fuel + 1, c :: t, pos =>
      if c = '(' then
        match splitAtChar ')' t with
        | none => extractFuel fuel t (pos + 1)
        | some (inner, rest) =>
            if inner = [] then extractFuel fuel t (pos + 1)
            else
              (if pyStrip inner = inner then
                [⟨inner, pos + 1, pos + 1 + inner.length⟩] else [])
              ++ extractFuel fuel rest (pos + inner.length + 2)
      else extractFuel fuel t (pos + 1)

/-- `extract_citations` from `rag/summarizers/base.py`: scan for `(ID)`
substrings and report each id with the offsets of the id itself
(the offsets do not include the parentheses). -/
def extract_citations (s : Str) : List Citation := extractFuel s.length s 0

theorem extractFuel_paren {fuel : Nat} {t : Str} {pos : Nat} :
    extractFuel (fuel + 1) ('(' :: t) pos =
      match splitAtChar ')' t with
      | none => extractFuel fuel t (pos + 1)
      | some (inner, rest) =>
          if inner = [] then extractFuel fuel t (pos + 1)
          else
            (if pyStrip inner = inner then
              [⟨inner, pos + 1, pos + 1 + inner.length⟩] else [])
            ++ extractFuel fuel rest (pos + inner.length + 2) := by
  rw [extractFuel]
  simp

theorem extractFuel_spec :
    ∀ (fuel : Nat) (s : Str) (pos : Nat), s.length ≤ fuel →
      ∀ cit ∈ extractFuel fuel s pos,
        pos ≤ cit.start ∧ cit.stop = cit.start + cit.id.length ∧
        sliceL s (cit.start - pos) (cit.stop - pos) = cit.id := by
  intro fuel
  induction fuel with
  | zero => intro s pos hle cit h; simp [extractFuel] at h
  | succ fuel ih =>
      intro s pos hle cit h
      match s with
      | [] => simp [extractFuel] at h
      | c :: t =>
          by_cases hc : c = '('
          · subst hc
            rw [extractFuel, if_pos rfl] at h
            cases hsp : splitAtChar ')' t with
            | none =>
                rw [hsp] at h
                obtain ⟨h1, h2, h3⟩ :=
                  ih t (pos + 1) (by simp at hle; omega) cit h
                refine ⟨by omega, h2, ?_⟩
                have hs : cit.start - pos = (cit.start - (pos + 1)) + 1 := by omega
                have he : cit.stop - pos = (cit.stop - (pos + 1)) + 1 := by omega
                rw [hs, he, sliceL_cons_succ, h3]
            | some p =>
                obtain ⟨inner, rest⟩ := p
                rw [hsp] at h
                simp only at h
                have hteq : t = inner ++ ')' :: rest := splitAtChar_some_eq hsp
                by_cases hinner : inner = []
                · rw [if_pos hinner] at h
                  obtain ⟨h1, h2, h3⟩ :=
                    ih t (pos + 1) (by simp at hle; omega) cit h
                  refine ⟨by omega, h2, ?_⟩
                  have hs : cit.start - pos = (cit.start - (pos + 1)) + 1 := by omega
                  have he : cit.stop - pos = (cit.stop - (pos + 1)) + 1 := by omega
                  rw [hs, he, sliceL_cons_succ, h3]
                · rw [if_neg hinner] at h
                  have hrl : rest.length < t.length := splitAtChar_some_length hsp
                  rcases List.mem_append.mp h with hemit | hrec
                  · by_cases hstrip : pyStrip inner = inner
                    · rw [if_pos hstrip] at hemit
                      simp at hemit
                      subst hemit
                      refine ⟨by simp, by simp, ?_⟩
                      simp only
                      have hs : pos + 1 - pos = 1 := by omega
                      have he : pos + 1 + inner.length - pos = inner.length + 1 := by
                        omega
                      rw [hs, he, hteq]
                      show sliceL ('(' :: (inner ++ ')' :: rest)) 1
                            (inner.length + 1) = inner
                      simp [sliceL, List.take_append_eq_append_take]
                    · rw [if_neg hstrip] at hemit; simp at hemit
                  · obtain ⟨h1, h2, h3⟩ :=
                      ih rest (pos + inner.length + 2)
                        (by simp at hle; omega) cit hrec
                    refine ⟨by omega, h2, ?_⟩
                    have hu : ('(' :: inner ++ [')']).length = inner.length + 2 := by
                      simp
                    have hs : cit.start - pos =
                        ('(' :: inner ++ [')']).length +
                          (cit.start - (pos + inner.length + 2)) := by
                      rw [hu]; omega
                    have he : cit.stop - pos =
                        ('(' :: inner ++ [')']).length +
                          (cit.stop - (pos + inner.length + 2)) := by
                      rw [hu]; omega
                    have harr : '(' :: t = ('(' :: inner ++ [')']) ++ rest := by
                      rw [hteq]; simp
                    rw [hs, he, harr, sliceL_append_shift, h3]
          · rw [extractFuel, if_neg hc] at h
            obtain ⟨h1, h2, h3⟩ := ih t (pos + 1) (by simp at hle; omega) cit h
            refine ⟨by omega, h2, ?_⟩
            have hs : cit.start - pos = (cit.start - (pos + 1)) + 1 := by omega
            have he : cit.stop - pos = (cit.stop - (pos + 1)) + 1 := by omega
            rw [hs, he, sliceL_cons_succ, h3]

/-- Every citation reported by `extract_citations` slices exactly its id
out of the scanned string. -/
theorem extract_citations_slices (s : Str) (cit : Citation)
    (h : cit ∈ extract_citations s) :
    sliceL s cit.start cit.stop = cit.id ∧
    cit.stop = cit.start + cit.id.length := by
  obtain ⟨h1, h2, h3⟩ := extractFuel_spec s.length s 0 (Nat.le_refl _) cit h
  simp only [Nat.sub_zero] at h3
  exact ⟨h3, h2⟩

/-! ## Summarizer budget helpers (`rag/summarizers/base.py`) -/

/-- `char_budget`: ~4 chars per token; non-positive budgets give 0.
Python returns an `int`; the value is never negative, so `Nat`. -/
def char_budget (token_budget : Int) : Nat :=
  if token_budget ≤ 0 then 0 else (token_budget * 4).toNat

/-- `safe_append_line`: append `line` (with a separating newline when the
buffer is nonempty) only when the result stays within `limit`;
returns the new buffer and whether the line was appended. -/
def safe_append_line (buf line : Str) (limit : Nat) : Str × Bool :=
  if limit = 0 then (buf, false)
  else
    let sep : Str := if buf = [] then [] else ['\n']
    if buf.length + sep.length + line.length ≤ limit then
      (buf ++ sep ++ line, true)
    else (buf, false)

/-! ## Fallback summarizer (`rag/summarizers/fallback.py`) -/

/-- Python `text.split()`: split on whitespace runs, dropping empties.
`acc` holds the (reversed) current word. -/
def pyWordsAux : Str → Str → List Str
  | [], acc => if acc = [] then [] else [acc.reverse]
  | c :: t, acc =>
      if pyIsSpace c then
        if acc = [] then pyWordsAux t [] else acc.reverse :: pyWordsAux t []
      else pyWordsAux t (c :: acc)

def pyWords (s : Str) : List Str := pyWordsAux s []

/-- `_clean_snippet`: collapse whitespace runs to single spaces, then
truncate to `max_len` with a `…` suffix. -/
def clean_snippet (text : Str) (max_len : Nat) : Str :=
  let s := List.intercalate [' '] (pyWords text)
  if s.length ≤ max_len then s else s.take (max_len - 1) ++ ['…']

/-- One element of the `hits` list as the fallback summarizer reads it:
`h.get("text", "")` and `h.get("id", "")`. -/
structure Hit where
  text : Str
  id : Str
deriving DecidableEq, Repr

/-- The rendered line for `abstract` style: `f"{snippet} ({id})."`. -/
def abstractLine (per_line : Nat) (h : Hit) : Str :=
  clean_snippet h.text per_line ++ str " (" ++ h.id ++ str ")."

/-- The rendered line for `qa` style: `f"{snippet} ({id})"`. -/
def qaLine (per_line : Nat) (h : Hit) : Str :=
  clean_snippet h.text per_line ++ str " (" ++ h.id ++ str ")"

/-- The rendered line for the default bullet style: `f"• {snippet} ({id})"`. -/
def bulletLine (per_line : Nat) (h : Hit) : Str :=
  str "• " ++ clean_snippet h.text per_line ++ str " (" ++ h.id ++ str ")"

/-- The `abstract` loop: at most 3 lines, stop at the first failed append. -/
def abstractLoop (limit per_line : Nat) : List Hit → Str → Nat → Str
  | [], buf, _ => buf
  | h :: t, buf, count =>
      if 3 ≤ count then buf
      else
        match safe_append_line buf (abstractLine per_line h) limit with
        | (nb, true) => abstractLoop limit per_line t nb (count + 1)
        | (_, false) => buf

/-- The `qa` loop: at most 2 cited facts, stop at the first failed append. -/
def qaLoop (limit per_line : Nat) : List Hit → Str → Nat → Str
  | [], buf, _ => buf
  | h :: t, buf, count =>
      if 2 ≤ count then buf
      else
        match safe_append_line buf (qaLine per_line h) limit with
        | (nb, true) => qaLoop limit per_line t nb (count + 1)
        | (_, false) => buf

/-- The default bullet loop: stop at the first failed append. -/
def bulletLoop (limit per_line : Nat) : List Hit → Str → Str
  | [], buf => buf
  | h :: t, buf =>
      match safe_append_line buf (bulletLine per_line h) limit with
      | (nb, true) => bulletLoop limit per_line t nb
      | (_, false) => buf

/-- `fallback_summarize(hits, style, token_budget)`; any style other than
`"abstract"` and `"qa"` renders bullets, as in the source. -/
def fallback_summarize (hits : List Hit) (style : String) (token_budget : Int) :
    Str × List Citation :=
  let limit := char_budget token_budget
  if limit = 0 ∨ hits = [] then ([], [])
  else
    let per_line := max 24 (min 140 (limit / 4))
    if style = "abstract" then
      let buf := abstractLoop limit per_line hits [] 0
      (buf, extract_citations buf)
    else if style = "qa" then
      let buf1 := (safe_append_line [] (str "Answer:") limit).1
      let buf := qaLoop limit per_line hits buf1 0
      (buf, extract_citations buf)
    else
      let buf := bulletLoop limit per_line hits []
      (buf, extract_citations buf)

/-! ## LLM adapter (`rag/summarizers/llm_adapter.py`) -/

/-- First index at which `pat` occurs in `s` (Python `s.find(pat)`). -/
def findSub (pat : Str) : Str → Option Nat
  | [] => if pat = [] then some 0 else none
  | c :: t =>
      if pat.isPrefixOf (c :: t) then some 0
      else (findSub pat t).map (· + 1)

theorem findSub_some_le {pat s : Str} {j : Nat} (h : findSub pat s = some j) :
    j ≤ s.length := by
  induction s generalizing j with
  | nil =>
      rw [findSub] at h
      by_cases hp : pat = []
      · rw [if_pos hp] at h; simp at h; omega
      · rw [if_neg hp] at h; simp at h
  | cons c t ih =>
      rw [findSub] at h
      by_cases hp : pat.isPrefixOf (c :: t)
      · rw [if_pos hp] at h; simp at h; omega
      · rw [if_neg hp] at h
        simp at h
        obtain ⟨j', hj', rfl⟩ := h
        have := ih hj'
        simp
        omega

/-- The marker-rewriting loop of the LLM adapter: replace each
`[[CITE:ID]]` with `(ID)`.  `fuel` only makes the recursion structural;
any `fuel ≥ s.length` gives the loop's exact behaviour. -/
def rewriteCitesFuel : Nat → Str → Str
  | 0, s => s
  | fuel + 1, s =>
      match findSub (str "[[CITE:") s with
      | none => s
      | some j =>
          match findSub (str "]]") (s.drop j) with
          | none => s
          | some d =>
              s.take j ++ '(' :: (sliceL s (j + 7) (j + d) ++ [')']) ++
                rewriteCitesFuel fuel (s.drop (j + d + 2))

def rewriteCites (s : Str) : Str := rewriteCitesFuel s.length s

/-- The LLM-adapter summarizer from `make_llm_summarizer`, with the raw
LLM output `raw` (an arbitrary string) as a parameter: rewrite
`[[CITE:ID]]` markers to `(ID)`, enforce the character budget by a hard
cut, then extract citation offsets from the final text. -/
def llm_summarize (raw : Str) (token_budget : Int) : Str × List Citation :=
  let rewritten := rewriteCites raw
  let limit := char_budget token_budget
  let summary :=
    if limit ≠ 0 ∧ limit < rewritten.length then rewritten.take limit
    else rewritten
  (summary, extract_citations summary)

/-! ## C2: citation offsets always slice the cited id -/

theorem fallback_citations_eq (hits : List Hit) (style : String) (tb : Int) :
    (fallback_summarize hits style tb).2 =
      extract_citations (fallback_summarize hits style tb).1 := by
  simp only [fallback_summarize]
  by_cases h1 : char_budget tb = 0 ∨ hits = []
  · rw [if_pos h1]; rfl
  · rw [if_neg h1]
    by_cases h2 : style = "abstract"
    · rw [if_pos h2]
    · rw [if_neg h2]
      by_cases h3 : style = "qa"
      · rw [if_pos h3]
      · rw [if_neg h3]

/-- C2: for every summary string produced by a summarizer (fallback or
LLM-adapter) and every returned citation, the citation's offsets slice
exactly the cited id out of the summary: `summary[start:stop] == id`. -/
theorem c2_citations_slice_exactly (hits : List Hit) (style : String)
    (tb : Int) (raw : Str) (cit : Citation) :
    (cit ∈ (fallback_summarize hits style tb).2 →
      sliceL (fallback_summarize hits style tb).1 cit.start cit.stop = cit.id) ∧
    (cit ∈ (llm_summarize raw tb).2 →
      sliceL (llm_summarize raw tb).1 cit.start cit.stop = cit.id) := by
  constructor
  · intro h
    rw [fallback_citations_eq] at h
    exact (extract_citations_slices _ _ h).1
  · intro h
    have h2 : (llm_summarize raw tb).2 =
        extract_citations (llm_summarize raw tb).1 := rfl
    rw [h2] at h
    exact (extract_citations_slices _ _ h).1

/-- Witness for C2 at a concrete input: the fallback summary
`"• t (i)"` carries citation `(i, (5, 6))`, and slicing `[5:6]` gives
`"i"`; the LLM-adapter output `"x (d) y"` carries `(d, (3, 4))`. -/
theorem c2_citations_slice_exactly_witness :
    ((⟨str "i", 5, 6⟩ : Citation) ∈
        (fallback_summarize [⟨str "t", str "i"⟩] "bullet" 100).2 ∧
      sliceL (fallback_summarize [⟨str "t", str "i"⟩] "bullet" 100).1 5 6 =
        str "i") ∧
    ((⟨str "d", 3, 4⟩ : Citation) ∈
        (llm_summarize (str "x [[CITE:d]] y") 100).2 ∧
      sliceL (llm_summarize (str "x [[CITE:d]] y") 100).1 3 4 = str "d") :=
  ⟨⟨by decide,
    (c2_citations_slice_exactly [⟨str "t", str "i"⟩] "bullet" 100 []
      ⟨str "i", 5, 6⟩).1 (by decide)⟩,
   ⟨by decide,
    (c2_citations_slice_exactly [] "bullet" 100 (str "x [[CITE:d]] y")
      ⟨str "d", 3, 4⟩).2 (by decide)⟩⟩

/-! ## C3: hard character budget and whole-line appends -/

theorem safe_append_line_cases (buf line : Str) (limit : Nat) :
    safe_append_line buf line limit = (buf, false) ∨
    (safe_append_line buf line limit =
        (buf ++ (if buf = [] then ([] : Str) else ['\n']) ++ line, true) ∧
      buf.length + (if buf = [] then ([] : Str) else ['\n']).length +
        line.length ≤ limit) := by
  unfold safe_append_line
  by_cases h0 : limit = 0
  · rw [if_pos h0]; exact Or.inl rfl
  · rw [if_neg h0]
    simp only
    split <;> split
    · next hc => exact Or.inr ⟨rfl, hc⟩
    · exact Or.inl rfl
    · next hc => exact Or.inr ⟨rfl, hc⟩
    · exact Or.inl rfl

theorem safe_append_line_length {buf line : Str} {limit : Nat}
    (h : buf.length ≤ limit) :
    (safe_append_line buf line limit).1.length ≤ limit := by
  rcases safe_append_line_cases buf line limit with hc | ⟨hc, hlen⟩
  · rw [hc]; exact h
  · rw [hc]
    simp only [List.length_append]
    omega

/-- `"\n".join`-style view of the summary buffer: the buffer always
consists of whole lines separated by single newlines. -/
def joinLines : List Str → Str
  | [] => []
  | [l] => l
  | l :: ls => l ++ '\n' :: joinLines ls

theorem joinLines_ne_nil {L : List Str} (h : ∀ l ∈ L, l ≠ [])
    (hL : L ≠ []) : joinLines L ≠ [] := by
  match L with
  | [] => exact absurd rfl hL
  | [l] =>
      have := h l (by simp)
      simpa [joinLines] using this
  | l :: l2 :: ls =>
      have := h l (by simp)
      simp [joinLines]

theorem joinLines_append_single (L : List Str) (line : Str) :
    joinLines (L ++ [line]) =
      joinLines L ++ (if L = [] then ([] : Str) else ['\n']) ++ line := by
  induction L with
  | nil => simp [joinLines]
  | cons l ls ih =>
      cases ls with
      | nil => simp [joinLines]
      | cons l2 ls' =>
          have h1 : joinLines ((l :: l2 :: ls') ++ [line]) =
              l ++ '\n' :: joinLines ((l2 :: ls') ++ [line]) := rfl
          have h2 : joinLines (l :: l2 :: ls') =
              l ++ '\n' :: joinLines (l2 :: ls') := rfl
          rw [h1, h2, ih]
          simp

theorem safe_append_join (L : List Str) (line : Str) (limit : Nat)
    (hbuf : ∀ l ∈ L, l ≠ []) (_hline : line ≠ []) :
    safe_append_line (joinLines L) line limit = (joinLines L, false) ∨
    safe_append_line (joinLines L) line limit =
      (joinLines (L ++ [line]), true) := by
  rcases safe_append_line_cases (joinLines L) line limit with hc | ⟨hc, _⟩
  · exact Or.inl hc
  · right
    rw [hc, joinLines_append_single]
    have : (if joinLines L = [] then ([] : Str) else ['\n']) =
        (if L = [] then ([] : Str) else ['\n']) := by
      by_cases hL : L = []
      · subst hL; simp [joinLines]
      · rw [if_neg hL, if_neg (joinLines_ne_nil hbuf hL)]
    rw [this]

theorem bulletLine_ne_nil (per_line : Nat) (h : Hit) :
    bulletLine per_line h ≠ [] := by
  unfold bulletLine
  rw [show str "• " = ['•', ' '] from rfl]
  simp

theorem abstractLine_ne_nil (per_line : Nat) (h : Hit) :
    abstractLine per_line h ≠ [] := by
  unfold abstractLine
  intro hc
  have := (List.append_eq_nil.mp hc).2
  rw [show str ")." = [')', '.'] from rfl] at this
  simp at this

theorem qaLine_ne_nil (per_line : Nat) (h : Hit) :
    qaLine per_line h ≠ [] := by
  unfold qaLine
  intro hc
  have := (List.append_eq_nil.mp hc).2
  rw [show str ")" = [')'] from rfl] at this
  simp at this

theorem bulletLoop_join (limit per_line : Nat) :
    ∀ (hits : List Hit) (L : List Str), (∀ l ∈ L, l ≠ []) →
      ∃ M, M.Sublist (hits.map (bulletLine per_line)) ∧ (∀ l ∈ M, l ≠ []) ∧
        bulletLoop limit per_line hits (joinLines L) = joinLines (L ++ M) := by
  intro hits
  induction hits with
  | nil =>
      intro L hL
      exact ⟨[], by simp, by simp, by simp [bulletLoop]⟩
  | cons h t ih =>
      intro L hL
      rcases safe_append_join L (bulletLine per_line h) limit hL
          (bulletLine_ne_nil per_line h) with hc | hc
      · refine ⟨[], by simp, by simp, ?_⟩
        simp only [bulletLoop]
        rw [hc]
        simp
      · have hL' : ∀ l ∈ L ++ [bulletLine per_line h], l ≠ [] := by
          intro l hl
          rcases List.mem_append.mp hl with h1 | h1
          · exact hL l h1
          · simp at h1; subst h1; exact bulletLine_ne_nil per_line h
        obtain ⟨M', hsub, hne, hrec⟩ := ih (L ++ [bulletLine per_line h]) hL'
        refine ⟨bulletLine per_line h :: M', ?_, ?_, ?_⟩
        · simpa using List.Sublist.cons₂ (bulletLine per_line h) hsub
        · intro l hl
          rcases List.mem_cons.mp hl with h1 | h1
          · subst h1; exact bulletLine_ne_nil per_line h
          · exact hne l h1
        · simp only [bulletLoop]
          rw [hc]
          simp only
          rw [hrec]
          congr 1
          simp

theorem abstractLoop_join (limit per_line : Nat) :
    ∀ (hits : List Hit) (L : List Str) (count : Nat), (∀ l ∈ L, l ≠ []) →
      ∃ M, M.Sublist (hits.map (abstractLine per_line)) ∧ (∀ l ∈ M, l ≠ []) ∧
        abstractLoop limit per_line hits (joinLines L) count =
          joinLines (L ++ M) := by
  intro hits
  induction hits with
  | nil =>
      intro L count hL
      exact ⟨[], by simp, by simp, by simp [abstractLoop]⟩
  | cons h t ih =>
      intro L count hL
      by_cases hcnt : 3 ≤ count
      · refine ⟨[], by simp, by simp, ?_⟩
        simp [abstractLoop, hcnt]
      · rcases safe_append_join L (abstractLine per_line h) limit hL
            (abstractLine_ne_nil per_line h) with hc | hc
        · refine ⟨[], by simp, by simp, ?_⟩
          simp only [abstractLoop, if_neg hcnt]
          rw [hc]
          simp
        · have hL' : ∀ l ∈ L ++ [abstractLine per_line h], l ≠ [] := by
            intro l hl
            rcases List.mem_append.mp hl with h1 | h1
            · exact hL l h1
            · simp at h1; subst h1; exact abstractLine_ne_nil per_line h
          obtain ⟨M', hsub, hne, hrec⟩ :=
            ih (L ++ [abstractLine per_line h]) (count + 1) hL'
          refine ⟨abstractLine per_line h :: M', ?_, ?_, ?_⟩
          · simpa using List.Sublist.cons₂ (abstractLine per_line h) hsub
          · intro l hl
            rcases List.mem_cons.mp hl with h1 | h1
            · subst h1; exact abstractLine_ne_nil per_line h
            · exact hne l h1
          · simp only [abstractLoop, if_neg hcnt]
            rw [hc]
            simp only
            rw [hrec]
            congr 1
            simp

theorem qaLoop_join (limit per_line : Nat) :
    ∀ (hits : List Hit) (L : List Str) (count : Nat), (∀ l ∈ L, l ≠ []) →
      ∃ M, M.Sublist (hits.map (qaLine per_line)) ∧ (∀ l ∈ M, l ≠ []) ∧
        qaLoop limit per_line hits (joinLines L) count = joinLines (L ++ M) := by
  intro hits
  induction hits with
  | nil =>
      intro L count hL
      exact ⟨[], by simp, by simp, by simp [qaLoop]⟩
  | cons h t ih =>
      intro L count hL
      by_cases hcnt : 2 ≤ count
      · refine ⟨[], by simp, by simp, ?_⟩
        simp [qaLoop, hcnt]
      · rcases safe_append_join L (qaLine per_line h) limit hL
            (qaLine_ne_nil per_line h) with hc | hc
        · refine ⟨[], by simp, by simp, ?_⟩
          simp only [qaLoop, if_neg hcnt]
          rw [hc]
          simp
        · have hL' : ∀ l ∈ L ++ [qaLine per_line h], l ≠ [] := by
            intro l hl
            rcases List.mem_append.mp hl with h1 | h1
            · exact hL l h1
            · simp at h1; subst h1; exact qaLine_ne_nil per_line h
          obtain ⟨M', hsub, hne, hrec⟩ :=
            ih (L ++ [qaLine per_line h]) (count + 1) hL'
          refine ⟨qaLine per_line h :: M', ?_, ?_, ?_⟩
          · simpa using List.Sublist.cons₂ (qaLine per_line h) hsub
          · intro l hl
            rcases List.mem_cons.mp hl with h1 | h1
            · subst h1; exact qaLine_ne_nil per_line h
            · exact hne l h1
          · simp only [qaLoop, if_neg hcnt]
            rw [hc]
            simp only
            rw [hrec]
            congr 1
            simp

theorem bulletLoop_length (limit per_line : Nat) :
    ∀ (hits : List Hit) (buf : Str), buf.length ≤ limit →
      (bulletLoop limit per_line hits buf).length ≤ limit := by
  intro hits
  induction hits with
  | nil => intro buf hb; simpa [bulletLoop] using hb
  | cons h t ih =>
      intro buf hb
      simp only [bulletLoop]
      cases hsa : safe_append_line buf (bulletLine per_line h) limit with
      | mk nb ok =>
          cases ok with
          | false => simpa using hb
          | true =>
              simp only
              apply ih
              have h1 : nb = (safe_append_line buf (bulletLine per_line h) limit).1 := by
                rw [hsa]
              rw [h1]
              exact safe_append_line_length hb

theorem abstractLoop_length (limit per_line : Nat) :
    ∀ (hits : List Hit) (buf : Str) (count : Nat), buf.length ≤ limit →
      (abstractLoop limit per_line hits buf count).length ≤ limit := by
  intro hits
  induction hits with
  | nil => intro buf count hb; simpa [abstractLoop] using hb
  | cons h t ih =>
      intro buf count hb
      simp only [abstractLoop]
      by_cases hcnt : 3 ≤ count
      · simpa [if_pos hcnt] using hb
      · rw [if_neg hcnt]
        cases hsa : safe_append_line buf (abstractLine per_line h) limit with
        | mk nb ok =>
            cases ok with
            | false => simpa using hb
            | true =>
                simp only
                apply ih
                have h1 : nb =
                    (safe_append_line buf (abstractLine per_line h) limit).1 := by
                  rw [hsa]
                rw [h1]
                exact safe_append_line_length hb

theorem qaLoop_length (limit per_line : Nat) :
    ∀ (hits : List Hit) (buf : Str) (count : Nat), buf.length ≤ limit →
      (qaLoop limit per_line hits buf count).length ≤ limit := by
  intro hits
  induction hits with
  | nil => intro buf count hb; simpa [qaLoop] using hb
  | cons h t ih =>
      intro buf count hb
      simp only [qaLoop]
      by_cases hcnt : 2 ≤ count
      · simpa [if_pos hcnt] using hb
      · rw [if_neg hcnt]
        cases hsa : safe_append_line buf (qaLine per_line h) limit with
        | mk nb ok =>
            cases ok with
            | false => simpa using hb
            | true =>
                simp only
                apply ih
                have h1 : nb =
                    (safe_append_line buf (qaLine per_line h) limit).1 := by
                  rw [hsa]
                rw [h1]
                exact safe_append_line_length hb

/-- The full candidate lines the fallback summarizer may append, per style. -/
def candLines (style : String) (hits : List Hit) (per_line : Nat) : List Str :=
  if style = "abstract" then hits.map (abstractLine per_line)
  else if style = "qa" then str "Answer:" :: hits.map (qaLine per_line)
  else hits.map (bulletLine per_line)

/-- C3 counterexample: for `token_budget = -1` and a nonempty hit list the
fallback summary is `""` with length 0, and `0 ≤ (-1) * 4` is false, so
"len(summary) ≤ token_budget * 4" fails for negative budgets. -/
theorem c3_counterexample_negative_budget :
    ¬ (((fallback_summarize [⟨str "t", str "i"⟩] "bullet" (-1)).1.length : Int)
        ≤ (-1) * 4) := by decide

/-- C3 (amended): for every hits list, style and token budget the fallback
summary length is at most `char_budget token_budget` (which is
`max 0 (token_budget*4)`, hence at most `token_budget * 4` whenever the
budget is nonnegative), and the summary is the newline-join of a sublist
of the fully rendered candidate lines — no partial line is ever appended. -/
theorem c3_budget_and_whole_lines (hits : List Hit) (style : String) (tb : Int) :
    (fallback_summarize hits style tb).1.length ≤ char_budget tb ∧
    (0 ≤ tb → (((fallback_summarize hits style tb).1.length : Int) ≤ tb * 4)) ∧
    (∃ M, M.Sublist
        (candLines style hits (max 24 (min 140 (char_budget tb / 4)))) ∧
      (fallback_summarize hits style tb).1 = joinLines M) := by
  have hbound : (fallback_summarize hits style tb).1.length ≤ char_budget tb ∧
      (∃ M, M.Sublist
          (candLines style hits (max 24 (min 140 (char_budget tb / 4)))) ∧
        (fallback_summarize hits style tb).1 = joinLines M) := by
    simp only [fallback_summarize]
    by_cases h1 : char_budget tb = 0 ∨ hits = []
    · rw [if_pos h1]
      exact ⟨by simp, [], by simp, rfl⟩
    · rw [if_neg h1]
      by_cases h2 : style = "abstract"
      · rw [if_pos h2]
        constructor
        · exact abstractLoop_length _ _ hits [] 0 (by simp)
        · obtain ⟨M, hsub, hne, heq⟩ :=
            abstractLoop_join (char_budget tb)
              (max 24 (min 140 (char_budget tb / 4))) hits [] 0 (by simp)
          refine ⟨M, ?_, ?_⟩
          · simpa [candLines, h2] using hsub
          · simpa using heq
      · rw [if_neg h2]
        by_cases h3 : style = "qa"
        · rw [if_pos h3]
          have hde : str "Answer:" ≠ [] := by decide
          constructor
          · apply qaLoop_length
            have : (([] : Str)).length ≤ char_budget tb := by simp
            exact safe_append_line_length this
          · have hcand : candLines style hits
                  (max 24 (min 140 (char_budget tb / 4))) =
                str "Answer:" :: hits.map
                  (qaLine (max 24 (min 140 (char_budget tb / 4)))) := by
              simp [candLines, h2, h3]
            rcases safe_append_join [] (str "Answer:") (char_budget tb)
                (by simp) hde with hc | hc
            · have hc1 : (safe_append_line [] (str "Answer:")
                  (char_budget tb)).1 = [] := by
                have h4 : safe_append_line [] (str "Answer:") (char_budget tb) =
                    ([], false) := by simpa [joinLines] using hc
                rw [h4]
              obtain ⟨M, hsub, hne, heq⟩ :=
                qaLoop_join (char_budget tb)
                  (max 24 (min 140 (char_budget tb / 4))) hits [] 0 (by simp)
              refine ⟨M, ?_, ?_⟩
              · rw [hcand]
                exact hsub.trans (List.sublist_cons_self _ _)
              · simp only [hc1]
                simpa [joinLines] using heq
            · have hc1 : (safe_append_line [] (str "Answer:")
                  (char_budget tb)).1 = str "Answer:" := by
                have h4 : safe_append_line [] (str "Answer:") (char_budget tb) =
                    (joinLines ([] ++ [str "Answer:"]), true) := by
                  simpa [joinLines] using hc
                rw [h4]
                rfl
              have hA : ∀ l ∈ [str "Answer:"], l ≠ [] := by
                intro l hl; simp at hl; subst hl; exact hde
              obtain ⟨M, hsub, hne, heq⟩ :=
                qaLoop_join (char_budget tb)
                  (max 24 (min 140 (char_budget tb / 4))) hits [str "Answer:"] 0 hA
              refine ⟨str "Answer:" :: M, ?_, ?_⟩
              · rw [hcand]
                exact List.Sublist.cons₂ _ hsub
              · simp only [hc1]
                simpa [joinLines] using heq
        · rw [if_neg h3]
          constructor
          · exact bulletLoop_length _ _ hits [] (by simp)
          · obtain ⟨M, hsub, hne, heq⟩ :=
              bulletLoop_join (char_budget tb)
                (max 24 (min 140 (char_budget tb / 4))) hits [] (by simp)
            refine ⟨M, ?_, ?_⟩
            · simpa [candLines, h2, h3] using hsub
            · simpa using heq
  refine ⟨hbound.1, ?_, hbound.2⟩
  intro htb
  have h1 := hbound.1
  unfold char_budget at h1
  by_cases h0 : tb ≤ 0
  · have : tb = 0 := le_antisymm h0 htb
    subst this
    rw [if_pos (by omega)] at h1
    omega
  · rw [if_neg h0] at h1
    have h2 : ((tb * 4).toNat : Int) = tb * 4 := Int.toNat_of_nonneg (by omega)
    omega

/-- Witness for C3's conditional part at `token_budget = 1`:
the summary for one hit has length ≤ 4. -/
theorem c3_budget_and_whole_lines_witness :
    (0 : Int) ≤ 1 ∧
    (((fallback_summarize [⟨str "t", str "i"⟩] "bullet" 1).1.length : Int) ≤
      1 * 4) :=
  ⟨by decide,
    (c3_budget_and_whole_lines [⟨str "t", str "i"⟩] "bullet" 1).2.1 (by decide)⟩

/-! ## Index manifest guard (`rag/manifest.py`) -/

/-- A JSON-ish Python value as read back from `manifest.json`.
`PyVal.none` plays Python `None`, which is also what `mf.get(key)`
returns for an absent key. -/
inductive PyVal where
  | str (s : String)
  | int (n : Int)
  | bool (b : Bool)
  | none
deriving DecidableEq, Repr

/-- Numeric view: Python `bool` is a subtype of `int` (`True == 1`). -/
def PyVal.numVal : PyVal → Option Int
  | .int n => some n
  | .bool b => some (if b then 1 else 0)
  | _ => Option.none

/-- Python `==` on these values. -/
def pyEq (a b : PyVal) : Bool :=
  match a.numVal, b.numVal with
  | some m, some n => m = n
  | _, _ =>
      match a, b with
      | .str s, .str t => s = t
      | .none, .none => true
      | _, _ => false

/-- `EmbedderInfo` dataclass: the query-time embedder identity. -/
structure EmbedderInfo where
  name : String
  dim : Int
  normalize : Bool
deriving DecidableEq, Repr

/-- The five compatibility-relevant fields of a loaded manifest, as
Python values (`PyVal.none` for an absent key). -/
structure StoredManifest where
  embedder_name : PyVal
  embedder_dim : PyVal
  normalize : PyVal
  distance : PyVal
  index_impl : PyVal
deriving DecidableEq, Repr

/-- `IndexCompatibilityError`: either the manifest is missing/unreadable,
or some fields mismatch (carrying `(key, got, expected)` per issue, in
the order the source compares them). -/
inductive CompatErr where
  | missing
  | mismatch (issues : List (String × PyVal × PyVal))
deriving DecidableEq, Repr

/-- The `issues` list accumulated by the five `cmp(key, expected)` calls
of `assert_index_compatible`, in source order. -/
def compatIssues (m : StoredManifest) (cur : EmbedderInfo)
    (expected_distance expected_index_impl : String) :
    List (String × PyVal × PyVal) :=
  (if pyEq m.embedder_name (.str cur.name) then []
    else [("embedder_name", m.embedder_name, PyVal.str cur.name)]) ++
  (if pyEq m.embedder_dim (.int cur.dim) then []
    else [("embedder_dim", m.embedder_dim, PyVal.int cur.dim)]) ++
  (if pyEq m.normalize (.bool cur.normalize) then []
    else [("normalize", m.normalize, PyVal.bool cur.normalize)]) ++
  (if pyEq m.distance (.str expected_distance) then []
    else [("distance", m.distance, PyVal.str expected_distance)]) ++
  (if pyEq m.index_impl (.str expected_index_impl) then []
    else [("index_impl", m.index_impl, PyVal.str expected_index_impl)])

/-- `assert_index_compatible`: `mf = none` models `_load_manifest` raising
because `manifest.json` is missing or unreadable/corrupted. -/
def assert_index_compatible (mf : Option StoredManifest) (cur : EmbedderInfo)
    (expected_distance expected_index_impl : String) : Except CompatErr Unit :=
  match mf with
  | Option.none => .error .missing
  | some m =>
      let issues := compatIssues m cur expected_distance expected_index_impl
      if issues = [] then .ok () else .error (.mismatch issues)

/-- Spec-side reference: the names of the fields among
{embedder_name, embedder_dim, normalize, distance, index_impl} whose
stored value differs from the query-time configuration. -/
def specDiffFields (m : StoredManifest) (cur : EmbedderInfo)
    (expected_distance expected_index_impl : String) : List String :=
  (if pyEq m.embedder_name (.str cur.name) then [] else ["embedder_name"]) ++
  (if pyEq m.embedder_dim (.int cur.dim) then [] else ["embedder_dim"]) ++
  (if pyEq m.normalize (.bool cur.normalize) then [] else ["normalize"]) ++
  (if pyEq m.distance (.str expected_distance) then [] else ["distance"]) ++
  (if pyEq m.index_impl (.str expected_index_impl) then [] else ["index_impl"])

/-- The field names carried by a compatibility error (empty for success
or for a missing manifest). -/
def errFieldNames : Except CompatErr Unit → List String
  | .error (.mismatch issues) => issues.map (fun x => x.1)
  | _ => []

theorem compatIssues_names (m : StoredManifest) (cur : EmbedderInfo)
    (d i : String) :
    (compatIssues m cur d i).map (fun x => x.1) = specDiffFields m cur d i := by
  unfold compatIssues specDiffFields
  split_ifs <;> simp

/-- C4: the compatibility check raises exactly when the manifest is
missing/unreadable or at least one of the five tracked fields differs,
and the single raised error names every differing field, in order. -/
theorem c4_manifest_check_names_all_diffs (cur : EmbedderInfo) (d i : String) :
    (∀ m : StoredManifest,
      ((assert_index_compatible (some m) cur d i = .ok ()) ↔
        specDiffFields m cur d i = []) ∧
      errFieldNames (assert_index_compatible (some m) cur d i) =
        specDiffFields m cur d i) ∧
    assert_index_compatible Option.none cur d i = .error .missing := by
  refine ⟨?_, rfl⟩
  intro m
  have hnames := compatIssues_names m cur d i
  by_cases hiss : compatIssues m cur d i = []
  · have hspec : specDiffFields m cur d i = [] := by
      rw [← hnames, hiss]; rfl
    constructor
    · simp [assert_index_compatible, hiss, hspec]
    · simp [assert_index_compatible, hiss, errFieldNames, hspec]
  · have hspec : specDiffFields m cur d i ≠ [] := by
      rw [← hnames]
      simpa using hiss
    constructor
    · simp [assert_index_compatible, hiss, hspec]
    · simp [assert_index_compatible, hiss, errFieldNames, hnames]

/-! ## Guardrail validator (`agent/guards.py`) -/

/-- A `\w` word character (ASCII model of the regex class). -/
def isWordChar (c : Char) : Bool := c.isAlpha || c.isDigit || c = '_'

/-- Case-insensitive prefix match of keyword `kw` (given lowercase)
against `s`; returns the remaining text on success. -/
def ciPrefix : Str → Str → Option Str
  | [], rest => some rest
  | _ :: _, [] => Option.none
  | k :: ks, c :: t => if c.toLower = k then ciPrefix ks t else Option.none

/-- `\b...\b` boundary test around a keyword occurrence:
`prev` is the character before the match site (none at string start). -/
def wordBoundaryOk (prev : Option Char) (after : Str) : Bool :=
  (match prev with
    | Option.none => true
    | some p => !(isWordChar p)) &&
  (match after with
    | [] => true
    | a :: _ => !(isWordChar a))

/-- Does one keyword match at this site with word boundaries? -/
def kwHere (prev : Option Char) (s : Str) (kw : Str) : Bool :=
  match ciPrefix kw s with
  | Option.none => false
  | some rest => wordBoundaryOk prev rest

/-- The keyword alternatives of `_SOURCES_RE`. -/
def sourcesKeywords : List Str :=
  [str "source", str "sources", str "cite", str "citation",
   str "citations", str "reference", str "references"]

/-- Scan every position of the text for a whole-word keyword match. -/
def needsCitationsAux : Option Char → Str → Bool
  | prev, [] => sourcesKeywords.any (fun kw => kwHere prev [] kw)
  | prev, c :: t =>
      sourcesKeywords.any (fun kw => kwHere prev (c :: t) kw) ||
        needsCitationsAux (some c) t

/-- `needs_citations`: the user text signals a request for sources. -/
def needs_citations (user_text : Str) : Bool :=
  needsCitationsAux Option.none user_text

/-- `inline_citation_ids`: the ids of the `(ID)` citations in a text. -/
def inline_citation_ids (text : Str) : List Str :=
  (extract_citations text).map (fun c => c.id)

/-- The two guardrail failures of `validate_final`. -/
inductive GuardErr where
  | required
  | unknown (cid : Str)
deriving DecidableEq, Repr

/-- The citations `validate_final` actually checks: the explicit ones if
any were given, otherwise the inline `(ID)` ids of the answer. -/
def providedOf (final_answer : Str) (explicit_ids : List Str) : List Str :=
  if explicit_ids = [] then inline_citation_ids final_answer else explicit_ids

/-- `validate_final(user_text, final_answer, explicit_ids, seen_ids)`. -/
def validate_final (user_text final_answer : Str)
    (explicit_ids seen_ids : List Str) : Except GuardErr Unit :=
  let provided := providedOf final_answer explicit_ids
  if needs_citations user_text ∧ provided = [] then .error .required
  else
    match provided.find? (fun c => !(seen_ids.contains c)) with
    | some c => .error (.unknown c)
    | Option.none => .ok ()

/-- C5 counterexample: with explicit citations present, inferred inline
citations are NOT checked against `seen_ids`: the answer cites `(b)`
inline, `b` was never observed, yet validation succeeds — contradicting
"for every citation, explicit or inferred, not in seen_ids it raises". -/
theorem c5_counterexample_inline_unchecked :
    validate_final (str "") (str "(b)") [str "a"] [str "a"] = .ok () ∧
    str "b" ∈ inline_citation_ids (str "(b)") ∧
    str "b" ∉ [str "a"] := by decide

/-- C5 (amended): `validate_final` checks the explicit citations if any
were given, otherwise the inline `(ID)` citations of the answer
(`providedOf`).  It raises GUARD_CITATION_REQUIRED iff the user text
requests sources and that checked set is empty; it raises
GUARD_CITATION_UNKNOWN_ID iff (otherwise) some checked citation is not
in `seen_ids`; and it returns normally otherwise. -/
theorem c5_validate_final_characterization (u a : Str) (e seen : List Str) :
    (validate_final u a e seen = .ok () ↔
      (¬(needs_citations u = true ∧ providedOf a e = []) ∧
        ∀ c ∈ providedOf a e, c ∈ seen)) ∧
    (validate_final u a e seen = .error .required ↔
      (needs_citations u = true ∧ providedOf a e = [])) ∧
    ((∃ c, validate_final u a e seen = .error (.unknown c)) ↔
      (¬(needs_citations u = true ∧ providedOf a e = []) ∧
        ∃ c ∈ providedOf a e, c ∉ seen)) := by
  unfold validate_final
  by_cases hreq : needs_citations u = true ∧ providedOf a e = []
  · rw [if_pos hreq]
    refine ⟨?_, ?_, ?_⟩
    · constructor
      · intro h; exact absurd h (by simp)
      · intro ⟨h1, _⟩; exact absurd hreq h1
    · simp [hreq]
    · constructor
      · intro ⟨c, hc⟩; exact absurd hc (by simp)
      · intro ⟨h1, _⟩; exact absurd hreq h1
  · rw [if_neg hreq]
    cases hf : (providedOf a e).find? (fun c => !(seen.contains c)) with
    | none =>
        refine ⟨?_, ?_, ?_⟩
        · simp only
          constructor
          · intro _
            refine ⟨hreq, ?_⟩
            intro c hc
            have := List.find?_eq_none.mp hf c hc
            simpa using this
          · intro _; trivial
        · simp [hreq]
        · constructor
          · intro ⟨c, hc⟩; exact absurd hc (by simp)
          · intro ⟨_, c, hc, hcs⟩
            have := List.find?_eq_none.mp hf c hc
            simp at this
            exact absurd this hcs
    | some c =>
        have hmem := List.mem_of_find?_eq_some hf
        have hpred := List.find?_some hf
        simp at hpred
        refine ⟨?_, ?_, ?_⟩
        · constructor
          · intro h; exact absurd h (by simp)
          · intro ⟨_, hall⟩
            exact absurd (hall c hmem) hpred
        · simp [hreq]
        · constructor
          · intro _
            exact ⟨hreq, c, hmem, hpred⟩
          · intro _
            exact ⟨c, rfl⟩

/-! ## Branch budget (`agent/agent_gate.py`) -/

/-- `_enforce_budget`: increment the per-session `branch_count` stored on
the tracer context, then raise `BranchBudgetExceeded` when the new count
exceeds the limit.  The state update happens before the raise, exactly
as in the source; the first component is the tracer's counter after the
call, the second the call's outcome. -/
def enforce_budget (branch_count : Nat) (limit : Int) : Nat × Except String Nat :=
  let count := branch_count + 1
  (count,
    if (count : Int) > limit then .error "BranchBudgetExceeded" else .ok count)

/-- The session's branch counter after `n` gate decisions, starting from
a fresh tracer context (`branch_count` absent, read as 0). -/
def budgetStateAfter (limit : Int) : Nat → Nat
  | 0 => 0
  | n + 1 => (enforce_budget (budgetStateAfter limit n) limit).1

/-- C6: the branch counter increases by exactly 1 on every decision and
is never reset: after `n` decisions it is exactly `n`.  The `(n+1)`-th
decision succeeds iff `n+1 ≤ L`, so with limit `L` the first `L`
decisions succeed (counts 1..L) and the first raise happens exactly on
the call whose incremented count first exceeds `L`. -/
theorem c6_budget_strict_increment_and_first_raise (L : Int) (n : Nat) :
    budgetStateAfter L n = n ∧
    (enforce_budget (budgetStateAfter L n) L).1 = n + 1 ∧
    ((enforce_budget (budgetStateAfter L n) L).2 = .ok (n + 1) ↔
      ((n + 1 : Int) ≤ L)) ∧
    ((enforce_budget (budgetStateAfter L n) L).2 =
        .error "BranchBudgetExceeded" ↔ (L < (n + 1 : Int))) := by
  have hstate : ∀ m : Nat, budgetStateAfter L m = m := by
    intro m
    induction m with
    | zero => rfl
    | succ k ihk => simp [budgetStateAfter, enforce_budget, ihk]
  refine ⟨hstate n, ?_, ?_, ?_⟩
  · simp [enforce_budget, hstate n]
  · rw [hstate n]
    simp only [enforce_budget]
    by_cases h : ((n + 1 : Nat) : Int) > L
    · rw [if_pos h]
      push_cast at h ⊢
      constructor
      · intro hc; exact absurd hc (by simp)
      · intro hc; omega
    · rw [if_neg h]
      push_cast at h ⊢
      constructor
      · intro _; omega
      · intro _; simp
  · rw [hstate n]
    simp only [enforce_budget]
    by_cases h : ((n + 1 : Nat) : Int) > L
    · rw [if_pos h]
      push_cast at h ⊢
      constructor
      · intro _; omega
      · intro _; simp
    · rw [if_neg h]
      push_cast at h ⊢
      constructor
      · intro hc; exact absurd hc (by simp)
      · intro hc; omega

/-! ## Branch decision detector (`agent/agent_gate.py`) -/

/-- Lowercase a string (Python `str.lower()`, ASCII model). -/
def lowerStr (s : Str) : Str := s.map Char.toLower

/-- Python `needle in hay` substring test. -/
def isSubstr (needle : Str) : Str → Bool
  | [] => needle.isPrefixOf []
  | c :: t => needle.isPrefixOf (c :: t) || isSubstr needle t

/-- The scanning loop of `_marker_counts` over the (flattened) markers of
all processes, keeping the running `count` of matching markers and the
number `seen` of markers inspected; stops early once `seen` reaches a
nonzero `limit`, returning the count so far. -/
def markerCountsAux (inc : List Str) (limit : Int) :
    List Str → Nat → Nat → Nat
  | [], count, _ => count
  | m :: ms, count, seen =>
      let lname := lowerStr m
      let count' := if inc.any (fun s => isSubstr s lname) then count + 1 else count
      let seen' := seen + 1
      if limit ≠ 0 ∧ (seen' : Int) ≥ limit then count'
      else markerCountsAux inc limit ms count' seen'

/-- `_marker_counts(profile, includes, limit)`: count markers whose
lowercased name contains any of the (nonempty, lowercased) include
substrings.  A profile is modelled by the marker-name lists of its
processes, scanned in order. -/
def marker_counts (profile : List (List Str)) (includes : List Str)
    (limit : Int) : Nat :=
  let inc := (includes.filter (fun s => s ≠ [])).map lowerStr
  if inc = [] then 0
  else markerCountsAux inc limit profile.flatten 0 0

/-- One configured branch rule (`options.analysis_rules.branches[i]`):
`min_count` defaults to 1 and `score` to 0.5 in the source. -/
structure BranchRule where
  name : String
  markers_any : List Str
  min_count : Int
  score : ℚ
  reason : String
deriving DecidableEq, Repr

/-- A produced `DecisionCandidate`; `features_count` is the observed
marker count (also interpolated into the reason text by the source). -/
structure DecisionCandidate where
  branch : String
  reason : String
  score : ℚ
  features_count : Nat
deriving DecidableEq, Repr

/-- The per-rule body of `_detector_marker_presence`: skip rules with no
markers, count matching markers, and emit a candidate iff the count
reaches `min_count`, boosting the base score by
`1 + min(count / max(1, min_count), 5) * 0.05`. -/
def candOf (profile : List (List Str)) (sample_limit : Int)
    (rule : BranchRule) : Option DecisionCandidate :=
  if rule.markers_any = [] then Option.none
  else
    let cnt := marker_counts profile rule.markers_any sample_limit
    if (cnt : Int) ≥ rule.min_count then
      let scale : ℚ := 1 + min ((cnt : ℚ) / max 1 (rule.min_count : ℚ)) 5 * (1 / 20)
      some ⟨rule.name, rule.reason, rule.score * scale, cnt⟩
    else Option.none

/-- `_detector_marker_presence`: one candidate per matching rule, in rule
order. -/
def detector_marker_presence (profile : List (List Str))
    (rules : List BranchRule) (sample_limit : Int) : List DecisionCandidate :=
  rules.filterMap (candOf profile sample_limit)

/-- C7: for every rule with a nonempty marker set and meaningful minimum
count (`min_count ≥ 1`, where the claimed formula's division is defined),
a count reaching `min_count` produces exactly the candidate whose score
is `base_score * (1 + min(count / min_count, 5) * 0.05)`, and a count
below `min_count` produces no candidate. -/
theorem c7_candidate_score_formula (profile : List (List Str)) (lim : Int)
    (rule : BranchRule) (hm : rule.markers_any ≠ [])
    (hmc : 1 ≤ rule.min_count) :
    (candOf profile lim rule =
      if (marker_counts profile rule.markers_any lim : Int) ≥ rule.min_count
      then some ⟨rule.name, rule.reason,
        rule.score * (1 + min ((marker_counts profile rule.markers_any lim : ℚ)
          / (rule.min_count : ℚ)) 5 * (1 / 20)),
        marker_counts profile rule.markers_any lim⟩
      else Option.none) ∧
    ∀ rules : List BranchRule,
      detector_marker_presence profile rules lim =
        rules.filterMap (candOf profile lim) := by
  constructor
  · unfold candOf
    rw [if_neg hm]
    have hmax : max 1 ((rule.min_count : ℚ)) = (rule.min_count : ℚ) := by
      apply max_eq_right
      exact_mod_cast hmc
    rw [hmax]
  · intro rules; rfl

/-- Witness for C7 at a concrete rule and profile: one `GC-major` marker
matches the `["gc"]` rule with `min_count = 1`, `base = 1/2`, producing
score `1/2 * (1 + min(1, 5)/20) = 21/40`; the same rule with
`min_count = 2` produces no candidate. -/
theorem c7_candidate_score_formula_witness :
    (⟨"g", [str "gc"], 1, 1/2, "r"⟩ : BranchRule).markers_any ≠ [] ∧
    (1 : Int) ≤ (⟨"g", [str "gc"], 1, 1/2, "r"⟩ : BranchRule).min_count ∧
    candOf [[str "GC-major", str "paint"]] 20000 ⟨"g", [str "gc"], 1, 1/2, "r"⟩ =
      some ⟨"g", "r", 21/40, 1⟩ ∧
    candOf [[str "GC-major", str "paint"]] 20000 ⟨"g", [str "gc"], 2, 1/2, "r"⟩ =
      Option.none := by
  have hcnt : marker_counts [[str "GC-major", str "paint"]] [str "gc"] 20000 = 1 := by
    decide
  refine ⟨by simp, by norm_num, ?_, ?_⟩
  · rw [(c7_candidate_score_formula [[str "GC-major", str "paint"]] 20000
      ⟨"g", [str "gc"], 1, 1/2, "r"⟩ (by simp) (by norm_num)).1]
    rw [hcnt]
    norm_num
  · rw [(c7_candidate_score_formula [[str "GC-major", str "paint"]] 20000
      ⟨"g", [str "gc"], 2, 1/2, "r"⟩ (by simp) (by norm_num)).1]
    rw [hcnt]
    norm_num

/-! ## Document store fixture (`tests/helpers/doc_store_fixture.py`) -/

/-- One corpus record: `parent_id = some p` iff the record carries a
`"parent_id"` key (making it a chunk); otherwise it is a parent. -/
structure PyDoc where
  id : String
  text : String
  parent_id : Option String
  meta : List (String × String)
deriving DecidableEq, Repr

/-- The `chunks` dict built by `make_fixture_docs`: for duplicate ids the
later record wins, as with Python dict assignment. -/
def chunksOf (corpus : List PyDoc) (i : String) : Option PyDoc :=
  (corpus.filter (fun d => d.parent_id.isSome && (d.id == i))).getLast?

/-- The `parents` dict built by `make_fixture_docs`. -/
def parentsOf (corpus : List PyDoc) (i : String) : Option PyDoc :=
  (corpus.filter (fun d => d.parent_id.isNone && (d.id == i))).getLast?

/-- The `parent_of` map: chunk id to its `parent_id` value. -/
def parent_of (corpus : List PyDoc) (i : String) : Option String :=
  match chunksOf corpus i with
  | some d => d.parent_id
  | Option.none => Option.none

/-- `_parent_id_of`: a chunk resolves to its recorded parent id, a parent
id resolves to itself, anything else to `None`. -/
def parent_id_of (corpus : List PyDoc) (i : String) : Option String :=
  match parent_of corpus i with
  | some p => some p
  | Option.none => if (parentsOf corpus i).isSome then some i else Option.none

/-- `_normalize`: the `{id, text, meta}` shape returned to callers. -/
structure Doc where
  id : String
  text : String
  meta : List (String × String)
deriving DecidableEq, Repr

def normalizeDoc (d : PyDoc) : Doc := ⟨d.id, d.text, d.meta⟩

/-- One iteration of the `return_kind == "both"` loop of `docs_impl`:
emit the chunk unless its id was already emitted, then its parent under
the same rule (`if pid and pid in parents and pid not in seen_ids`);
a bare parent id is emitted once; unresolvable ids contribute nothing. -/
def bothStep (corpus : List PyDoc) (st : List Doc × List String)
    (i : String) : List Doc × List String :=
  match chunksOf corpus i with
  | some d =>
      let res1 := if i ∈ st.2 then st.1 else st.1 ++ [normalizeDoc d]
      let seen1 := if i ∈ st.2 then st.2 else i :: st.2
      match parent_id_of corpus i with
      | some p =>
          if p ≠ "" then
            match parentsOf corpus p with
            | some pd =>
                if p ∈ seen1 then (res1, seen1)
                else (res1 ++ [normalizeDoc pd], p :: seen1)
            | Option.none => (res1, seen1)
          else (res1, seen1)
      | Option.none => (res1, seen1)
  | Option.none =>
      match parentsOf corpus i with
      | some d =>
          if i ∈ st.2 then st
          else (st.1 ++ [normalizeDoc d], i :: st.2)
      | Option.none => st

/-- `docs_impl(ids, "both")`. -/
def docs_both (corpus : List PyDoc) (ids : List String) : List Doc :=
  (ids.foldl (bothStep corpus) ([], [])).1

/-- Spec-side reference, following the claim's words: per input id in
order, the resolved chunk (a parent id standing for its own chunk)
immediately followed by its parent; unresolvable ids are omitted. -/
def specBlock (corpus : List PyDoc) (i : String) : List Doc :=
  (match chunksOf corpus i with
    | some d => [normalizeDoc d]
    | Option.none =>
        match parentsOf corpus i with
        | some d => [normalizeDoc d]
        | Option.none => []) ++
  (match parent_id_of corpus i with
    | some p =>
        if p ≠ "" then
          match parentsOf corpus p with
          | some pd => [normalizeDoc pd]
          | Option.none => []
        else []
    | Option.none => [])

/-- Spec-side de-duplication: emit each block document unless its id was
already emitted earlier in the same request (first-seen order kept). -/
def emitNew (block : List Doc) (st : List Doc × List String) :
    List Doc × List String :=
  block.foldl
    (fun st d => if d.id ∈ st.2 then st else (st.1 ++ [d], d.id :: st.2)) st

/-- Spec-side reference for `mode = both` as the claim states it. -/
def both_spec (corpus : List PyDoc) (ids : List String) : List Doc :=
  (ids.foldl (fun st i => emitNew (specBlock corpus i) st) ([], [])).1

theorem chunksOf_id {corpus : List PyDoc} {i : String} {d : PyDoc}
    (h : chunksOf corpus i = some d) : d.id = i := by
  have hmem : d ∈ corpus.filter (fun d => d.parent_id.isSome && (d.id == i)) :=
    List.mem_of_mem_getLast? h
  have := List.of_mem_filter hmem
  simp at this
  exact this.2

theorem parentsOf_id {corpus : List PyDoc} {i : String} {d : PyDoc}
    (h : parentsOf corpus i = some d) : d.id = i := by
  have hmem : d ∈ corpus.filter (fun d => d.parent_id.isNone && (d.id == i)) :=
    List.mem_of_mem_getLast? h
  have := List.of_mem_filter hmem
  simp at this
  exact this.2

theorem bothStep_eq_spec (corpus : List PyDoc) (st : List Doc × List String)
    (i : String) : bothStep corpus st i = emitNew (specBlock corpus i) st := by
  obtain ⟨res, seen⟩ := st
  cases hc : chunksOf corpus i with
  | some d =>
      have hid : (normalizeDoc d).id = i := by
        simpa [normalizeDoc] using chunksOf_id hc
      cases hp : parent_id_of corpus i with
      | some p =>
          by_cases hpe : p = ""
          · subst hpe
            simp only [bothStep, specBlock, emitNew, hc, hp, List.foldl,
              ne_eq, not_true_eq_false, if_false, List.append_nil, hid]
            split_ifs <;> rfl
          · cases hpp : parentsOf corpus p with
            | some pd =>
                have hpid : (normalizeDoc pd).id = p := by
                  simpa [normalizeDoc] using parentsOf_id hpp
                simp only [bothStep, specBlock, emitNew, hc, hp, hpp,
                  List.foldl, ne_eq, hpe, not_false_eq_true, if_true,
                  List.append_nil, hid, hpid, List.cons_append,
                  List.nil_append]
                split_ifs <;> rfl
            | none =>
                simp only [bothStep, specBlock, emitNew, hc, hp, hpp,
                  List.foldl, ne_eq, hpe, not_false_eq_true, if_true,
                  List.append_nil, hid]
                split_ifs <;> rfl
      | none =>
          simp only [bothStep, specBlock, emitNew, hc, hp, List.foldl,
            List.append_nil, hid]
          split_ifs <;> rfl
  | none =>
      cases hpar : parentsOf corpus i with
      | some d =>
          have hid : (normalizeDoc d).id = i := by
            simpa [normalizeDoc] using parentsOf_id hpar
          have hpid : parent_id_of corpus i = some i := by
            simp [parent_id_of, parent_of, hc, hpar]
          simp only [bothStep, specBlock, emitNew, hc, hpar, hpid,
            List.foldl, ne_eq, hid, List.cons_append, List.nil_append]
          by_cases hie : i = ""
          · simp only [hie, not_true_eq_false, if_false, List.append_nil]
            split_ifs <;> rfl
          · simp only [hie, not_false_eq_true, if_true]
            by_cases hi : i ∈ seen
            · simp [hi, hid]
            · simp [hi, hid]
      | none =>
          have hpid : parent_id_of corpus i = Option.none := by
            simp [parent_id_of, parent_of, hc, hpar]
          simp [bothStep, specBlock, emitNew, hc, hpar, hpid]

/-- The dedup invariant of the `both` fold: emitted ids are distinct and
all recorded in `seen_ids`. -/
def BothInv (st : List Doc × List String) : Prop :=
  (st.1.map (fun d => d.id)).Nodup ∧ ∀ d ∈ st.1, d.id ∈ st.2

theorem emit_one_inv {res : List Doc} {seen : List String} {d : Doc}
    (h1 : (res.map (fun x => x.id)).Nodup) (h2 : ∀ x ∈ res, x.id ∈ seen)
    (hd : d.id ∉ seen) :
    ((res ++ [d]).map (fun x => x.id)).Nodup ∧
      ∀ x ∈ res ++ [d], x.id ∈ d.id :: seen := by
  constructor
  · rw [List.map_append]
    apply List.Nodup.append h1 (by simp)
    intro a ha hb
    simp at hb
    subst hb
    obtain ⟨x, hx, hxe⟩ := List.mem_map.mp ha
    exact hd (hxe ▸ h2 x hx)
  · intro x hx
    rcases List.mem_append.mp hx with h | h
    · exact List.mem_cons_of_mem _ (h2 x h)
    · simp at h; subst h; simp

theorem bothStep_inv (corpus : List PyDoc) (st : List Doc × List String)
    (i : String) (h : BothInv st) : BothInv (bothStep corpus st i) := by
  obtain ⟨res, seen⟩ := st
  obtain ⟨h1, h2⟩ := h
  cases hc : chunksOf corpus i with
  | some d =>
      have hid : (normalizeDoc d).id = i := by
        simpa [normalizeDoc] using chunksOf_id hc
      have hstep1 : BothInv
          (if i ∈ seen then res else res ++ [normalizeDoc d],
           if i ∈ seen then seen else i :: seen) := by
        by_cases hi : i ∈ seen
        · simpa [hi] using ⟨h1, h2⟩
        · simp only [if_neg hi]
          have := emit_one_inv h1 h2 (hid ▸ hi)
          exact ⟨this.1, by simpa [hid] using this.2⟩
      obtain ⟨g1, g2⟩ := hstep1
      cases hp : parent_id_of corpus i with
      | some p =>
          by_cases hpe : p = ""
          · subst hpe
            simp only [bothStep, hc, hp, ne_eq, not_true_eq_false, if_false]
            exact ⟨g1, g2⟩
          · cases hpp : parentsOf corpus p with
            | some pd =>
                have hpid : (normalizeDoc pd).id = p := by
                  simpa [normalizeDoc] using parentsOf_id hpp
                simp only [bothStep, hc, hp, hpp, ne_eq, hpe,
                  not_false_eq_true, if_true]
                by_cases hps : p ∈ (if i ∈ seen then seen else i :: seen)
                · simp only [if_pos hps]
                  exact ⟨g1, g2⟩
                · simp only [if_neg hps]
                  have := emit_one_inv g1 g2 (hpid ▸ hps)
                  exact ⟨this.1, by simpa [hpid] using this.2⟩
            | none =>
                simp only [bothStep, hc, hp, hpp, ne_eq, hpe,
                  not_false_eq_true, if_true]
                exact ⟨g1, g2⟩
      | none =>
          simp only [bothStep, hc, hp]
          exact ⟨g1, g2⟩
  | none =>
      cases hpar : parentsOf corpus i with
      | some d =>
          have hid : (normalizeDoc d).id = i := by
            simpa [normalizeDoc] using parentsOf_id hpar
          simp only [bothStep, hc, hpar]
          by_cases hi : i ∈ seen
          · simpa [hi] using ⟨h1, h2⟩
          · simp only [if_neg hi]
            have := emit_one_inv h1 h2 (hid ▸ hi)
            exact ⟨this.1, by simpa [hid] using this.2⟩
      | none =>
          simpa [bothStep, hc, hpar] using ⟨h1, h2⟩

theorem foldl_bothStep_inv (corpus : List PyDoc) :
    ∀ (ids : List String) (st : List Doc × List String), BothInv st →
      BothInv (ids.foldl (bothStep corpus) st) := by
  intro ids
  induction ids with
  | nil => intro st h; exact h
  | cons i rest ih =>
      intro st h
      exact ih _ (bothStep_inv corpus st i h)

theorem foldl_bothStep_eq_spec (corpus : List PyDoc) :
    ∀ (ids : List String) (st : List Doc × List String),
      ids.foldl (bothStep corpus) st =
        ids.foldl (fun st i => emitNew (specBlock corpus i) st) st := by
  intro ids
  induction ids with
  | nil => intro st; rfl
  | cons i rest ih =>
      intro st
      simp only [List.foldl]
      rw [bothStep_eq_spec]
      exact ih _

/-- C8: document resolution with `mode = both` realizes the claim's
description exactly — per input id in order, the resolved chunk (a bare
parent id standing for its own chunk) immediately followed by its
parent, unresolvable ids silently omitted, already-emitted ids skipped —
and the emitted document ids are pairwise distinct, preserving
first-seen order. -/
theorem c8_both_matches_spec_and_never_duplicates (corpus : List PyDoc)
    (ids : List String) :
    docs_both corpus ids = both_spec corpus ids ∧
    ((docs_both corpus ids).map (fun d => d.id)).Nodup := by
  constructor
  · unfold docs_both both_spec
    rw [foldl_bothStep_eq_spec]
  · have := foldl_bothStep_inv corpus ids ([], []) ⟨by simp, by simp⟩
    exact this.1

/-! ## Markdown ingestion (`rag/ingest.py`) -/

/-- A single-quote character, used by the front-matter scalar unquoting. -/
def squote : Char := Char.ofNat 39

/-- A front-matter value: a string scalar or a parsed list of strings
(the documented subset of `ast.literal_eval`, "JSON-ish lists"). -/
inductive MVal where
  | s (v : Str)
  | list (vs : List Str)
deriving DecidableEq, Repr

/-- Python dict lookup over an insertion-ordered association list
(later assignments to the same key win). -/
def metaGet (m : List (Str × MVal)) (k : Str) : Option MVal :=
  ((m.filter (fun p => p.1 == k)).getLast?).map (fun p => p.2)

/-- Split a string at every occurrence of `c` (Python `s.split(c)`). -/
def splitOnChar (c : Char) : Str → List Str
  | [] => [[]]
  | x :: t =>
      if x = c then [] :: splitOnChar c t
      else
        match splitOnChar c t with
        | [] => [[x]]
        | p :: ps => (x :: p) :: ps

/-- Python `str.splitlines()` (newline-only model; the ingested docs use
`\n` endings). -/
def splitlinesPy (s : Str) : List Str :=
  if s = [] then []
  else
    let parts := splitOnChar '\n' s
    if s.getLast? = some '\n' then parts.dropLast else parts

/-- Parse one quoted string literal (with `"` or `'`) after stripping. -/
def parseStrLit (e : Str) : Option Str :=
  let e := pyStrip e
  if 2 ≤ e.length ∧
      ((e.head? = some '"' ∧ e.getLast? = some '"') ∨
       (e.head? = some squote ∧ e.getLast? = some squote)) then
    some ((e.drop 1).dropLast)
  else Option.none

/-- The documented subset of `ast.literal_eval` used for front-matter
lists: `[` ... `]` around comma-separated quoted strings. -/
def parseListNaive (val : Str) : Option (List Str) :=
  let inner := (val.drop 1).dropLast
  if pyStrip inner = [] then some []
  else (splitOnChar ',' inner).mapM parseStrLit

/-- Unquote a simple quoted scalar, else keep the raw value. -/
def scalarVal (val : Str) : MVal :=
  if (val.head? = some '"' ∧ val.getLast? = some '"') ∨
      (val.head? = some squote ∧ val.getLast? = some squote) then
    MVal.s ((val.drop 1).dropLast)
  else MVal.s val

/-- `_parse_front_matter_naive`: line-oriented `key: value` parser with
safe fallbacks; blank lines, `#` comments and colon-less lines are
skipped. -/
def parse_front_matter_naive (fm : Str) : List (Str × MVal) :=
  (splitlinesPy fm).foldl
    (fun data line =>
      if pyStrip line = [] ∨ (pyStrip line).head? = some '#' then data
      else
        match splitAtChar ':' line with
        | Option.none => data
        | some (k, v) =>
            let key := pyStrip k
            let val := pyStrip v
            if val = [] then data ++ [(key, MVal.s [])]
            else if val.head? = some '[' ∧ val.getLast? = some ']' then
              match parseListNaive val with
              | some l => data ++ [(key, MVal.list l)]
              | Option.none => data ++ [(key, scalarVal val)]
            else data ++ [(key, scalarVal val)])
    []

/-- Does `FRONT_MATTER_RE` match?  The text must start with `---\n` and
contain a closing `\n---\n` afterwards (the non-greedy group takes the
earliest closing delimiter). -/
def fmMatches (s : Str) : Bool :=
  (str "---\n").isPrefixOf s && (findSub (str "\n---\n") (s.drop 4)).isSome

/-- `parse_markdown`: split off front matter when the pattern matches;
otherwise return an empty metadata map with the whole text as body. -/
def parse_markdown (s : Str) : List (Str × MVal) × Str :=
  if (str "---\n").isPrefixOf s then
    match findSub (str "\n---\n") (s.drop 4) with
    | some d =>
        let t := s.drop 4
        (parse_front_matter_naive (t.take d), t.drop (d + 5))
    | Option.none => ([], s)
  else ([], s)

/-- `HEADER_RE` on one line: 1–6 leading `#`, at least one whitespace,
then the title text. -/
def headerMatch (line : Str) : Option (Nat × Str) :=
  let hashes := line.takeWhile (fun c => c = '#')
  let n := hashes.length
  if 1 ≤ n ∧ n ≤ 6 then
    let rest := line.drop n
    let sp := rest.takeWhile pyIsSpace
    if 1 ≤ sp.length then some (n, rest.drop sp.length) else Option.none
  else Option.none

/-- The section-accumulating loop of `split_into_sections`: H1/H2 lines
start a new section; a buffer-less title is dropped when the next header
arrives. -/
def sectionsAux : List Str → Str → List Str → List (Str × List Str)
  | [], title, buf => if buf ≠ [] then [(title, buf)] else []
  | line :: rest, title, buf =>
      match headerMatch line with
      | some (n, g2) =>
          if n ≤ 2 then
            (if buf ≠ [] then [(title, buf)] else []) ++
              sectionsAux rest (pyStrip g2) []
          else sectionsAux rest title (buf ++ [line])
      | Option.none => sectionsAux rest title (buf ++ [line])

/-- `split_into_sections`: `(title, text)` pairs, dropping sections whose
joined buffer is whitespace-only. -/
def split_into_sections (body : Str) : List (Str × Str) :=
  (sectionsAux (splitlinesPy body) (str "preamble") []).filterMap
    (fun p =>
      if pyStrip p.2.flatten ≠ [] then
        some (p.1, pyStrip (List.intercalate ['\n'] p.2))
      else Option.none)

/-- Whitespace runs to single dashes (`re.sub(r"\s+", "-", s)`),
tracked with an in-run flag to keep the recursion structural. -/
def wsToDashAux : Bool → Str → Str
  | _, [] => []
  | inRun, c :: t =>
      if pyIsSpace c then
        (if inRun then [] else ['-']) ++ wsToDashAux true t
      else c :: wsToDashAux false t

/-- `_slugify`: strip, lowercase, drop everything outside
`[a-z0-9\s-]`, then collapse whitespace runs to `-`. -/
def slugify (s : Str) : Str :=
  let s1 := (pyStrip s).map Char.toLower
  let s2 := s1.filter
    (fun c => ('a' ≤ c ∧ c ≤ 'z') ∨ ('0' ≤ c ∧ c ≤ '9') ∨
      pyIsSpace c = true ∨ c = '-')
  wsToDashAux false s2

/-- Python `str()` of a front-matter value (list repr with `'`). -/
def pyStrMVal : MVal → Str
  | .s v => v
  | .list vs =>
      '[' :: List.intercalate (str ", ")
        (vs.map (fun v => squote :: v ++ [squote])) ++ [']']

/-- Python truthiness of a front-matter value. -/
def mvalTruthy : MVal → Bool
  | .s v => v ≠ []
  | .list vs => vs ≠ []

/-- Decimal rendering of a chunk index. -/
def natToStr (n : Nat) : Str := (toString n).toList

/-- The `Chunk` dataclass. -/
structure Chunk where
  doc_id : Str
  chunk_id : Str
  text : Str
  sectionName : Str
  tags : List Str
  source : Option Str
  updated_at : Option Str
  title : Option Str
  meta : List (Str × MVal)
deriving DecidableEq, Repr

/-- The `X or Y or "unknown-doc"` chain over Python truthiness. -/
def firstTruthy (a b : Option MVal) : MVal :=
  match a with
  | some v => if mvalTruthy v then v else
      match b with
      | some w => if mvalTruthy w then w else MVal.s (str "unknown-doc")
      | Option.none => MVal.s (str "unknown-doc")
  | Option.none =>
      match b with
      | some w => if mvalTruthy w then w else MVal.s (str "unknown-doc")
      | Option.none => MVal.s (str "unknown-doc")

/-- `build_chunks(meta, sections)`: one chunk per section with id
`doc_id#index`; front matter is passed through verbatim on every chunk.
(`source` becomes the string `"None"` when the key is absent, exactly as
`str(source_val)` does in the source.) -/
def build_chunks (meta : List (Str × MVal)) (sections : List (Str × Str)) :
    List Chunk :=
  let doc_id := pyStrMVal
    (firstTruthy (metaGet meta (str "id")) (metaGet meta (str "doc_id")))
  let tags : List Str :=
    match metaGet meta (str "tags") with
    | some (.list l) => l
    | _ => []
  let source : Option Str :=
    match metaGet meta (str "source") with
    | some (.s v) => some v
    | some _ => Option.none
    | Option.none => some (str "None")
  let updated_at : Option Str :=
    match metaGet meta (str "updated_at") with
    | some v => some (pyStrMVal v)
    | Option.none => Option.none
  let title : Option Str :=
    match metaGet meta (str "title") with
    | some (.s v) => some v
    | _ => Option.none
  sections.enum.map (fun p =>
    let idx := p.1
    let slug := slugify p.2.1
    let sec := if slug ≠ [] then slug else str "section-" ++ natToStr idx
    { doc_id := doc_id,
      chunk_id := doc_id ++ '#' :: natToStr idx,
      text := p.2.2,
      sectionName := sec,
      tags := tags,
      source := source,
      updated_at := updated_at,
      title := title,
      meta := meta })

/-- `ingest_file`, at the level of the file's text content. -/
def ingest_content (s : Str) : List Chunk :=
  let pm := parse_markdown s
  build_chunks pm.1 (split_into_sections pm.2)

/-- C9: when the front matter cannot be parsed (the front-matter pattern
does not match), ingestion does not abort: parsing yields an empty
metadata map with the entire text as body, and the body is still split
into sections and chunked. -/
theorem c9_malformed_front_matter_degrades (s : Str)
    (h : fmMatches s = false) :
    parse_markdown s = ([], s) ∧
    ingest_content s = build_chunks [] (split_into_sections s) := by
  have hpm : parse_markdown s = ([], s) := by
    unfold parse_markdown
    unfold fmMatches at h
    by_cases hp : (str "---\n").isPrefixOf s
    · rw [if_pos hp]
      rw [hp] at h
      simp at h
      rw [h]
    · rw [if_neg hp]
  refine ⟨hpm, ?_⟩
  unfold ingest_content
  rw [hpm]

/-- Witness for C9: a document whose front matter never closes (no
`\n---\n`) is malformed; it parses to an empty metadata map and its body
is still chunked into two sections (`unknown-doc#0`, `unknown-doc#1`). -/
theorem c9_malformed_front_matter_degrades_witness :
    fmMatches (str "---\nid: x\n# T\nbody") = false ∧
    parse_markdown (str "---\nid: x\n# T\nbody") =
      ([], str "---\nid: x\n# T\nbody") ∧
    (ingest_content (str "---\nid: x\n# T\nbody")).map
        (fun c => c.chunk_id) =
      [str "unknown-doc#0", str "unknown-doc#1"] :=
  ⟨by decide,
   (c9_malformed_front_matter_degrades (str "---\nid: x\n# T\nbody")
     (by decide)).1,
   by decide⟩

/-! ## Vector index (`rag/index.py`, `NumpyIndex`) — real-valued model -/

/-- A vector (one row of a float matrix), modelled over `ℝ`. -/
abbrev Vec := List ℝ

/-- The L2 norm of one row (`np.linalg.norm(mat, axis=1)`). -/
noncomputable def vecNorm (v : Vec) : ℝ :=
  Real.sqrt ((v.map (fun x => x ^ 2)).sum)

/-- The denominator of `_normalize`: the row norm plus `1e-12`. -/
noncomputable def normDenom (v : Vec) : ℝ := vecNorm v + 1 / 1000000000000

/-- `_normalize` on one row: divide by `norm + 1e-12`. -/
noncomputable def normalizeV (v : Vec) : Vec :=
  v.map (fun x => x / normDenom v)

/-- One metadata dict, with the keys `NumpyIndex.search` reads
(`m.get(...)` gives `None` for an absent key). -/
structure NMeta where
  doc_id : Option String
  chunk_id : Option String
  section_path : Option String
  heading : Option String
deriving DecidableEq, Repr

/-- The mutable state of a `NumpyIndex`: `vecs = none` until the first
successful `add`, then the stack of stored (normalized) rows. -/
structure NumpyIndexState where
  vecs : Option (List Vec)
  metas : List NMeta

/-- Is this list of rows a rectangular 2-D array?  (`np.array` of a
ragged or empty list would not have `ndim == 2`.) -/
def is2D (rows : List Vec) : Bool :=
  match rows with
  | [] => false
  | r :: rs => rs.all (fun x => x.length == r.length)

/-- `shape[1]` of a nonempty 2-D array. -/
def headDim (rows : List Vec) : Nat :=
  match rows with
  | [] => 0
  | r :: _ => r.length

/-- `NumpyIndex.add(vectors, metas)`: reject non-2-D input, mismatched
meta counts and dimension drift, else L2-normalize and stack the rows. -/
noncomputable def NumpyIndex_add (st : NumpyIndexState) (vectors : List Vec)
    (metas : List NMeta) : Except String NumpyIndexState :=
  if ¬ is2D vectors then .error "vectors must be 2D [n, d]"
  else if metas.length ≠ vectors.length then
    .error "metas length must match vectors"
  else
    match st.vecs with
    | Option.none => .ok ⟨some (vectors.map normalizeV), st.metas ++ metas⟩
    | some stored =>
        if headDim vectors ≠ headDim stored then
          .error "all vectors must have same dimension"
        else .ok ⟨some (stored ++ vectors.map normalizeV), st.metas ++ metas⟩

/-- One returned hit of `NumpyIndex.search`. -/
structure NHit where
  doc_id : Option String
  chunk_id : Option String
  score : ℝ
  section_path : Option String
  heading : Option String

/-- Row-by-row inner product (`self._vecs @ q.T`). -/
noncomputable def dotL (u v : Vec) : ℝ :=
  (List.zipWith (fun a b => a * b) u v).sum

/-- The ordering realized by `np.argsort(-sims)` under a stable model:
similarity descending, exact ties in stored (insertion) order. -/
def argsortRel (p q : Nat × ℝ) : Prop :=
  q.2 < p.2 ∨ (p.2 = q.2 ∧ p.1 ≤ q.1)

noncomputable instance : DecidableRel argsortRel := fun p q => by
  unfold argsortRel
  exact inferInstance

instance : IsTotal (Nat × ℝ) argsortRel := by
  constructor
  intro a b
  rcases lt_trichotomy a.2 b.2 with h | h | h
  · exact Or.inr (Or.inl h)
  · rcases Nat.le_total a.1 b.1 with hn | hn
    · exact Or.inl (Or.inr ⟨h, hn⟩)
    · exact Or.inr (Or.inr ⟨h.symm, hn⟩)
  · exact Or.inl (Or.inl h)

instance : IsTrans (Nat × ℝ) argsortRel := by
  constructor
  intro a b c hab hbc
  rcases hab with h1 | ⟨h1, h1n⟩
  · rcases hbc with h2 | ⟨h2, h2n⟩
    · exact Or.inl (h2.trans h1)
    · exact Or.inl (h2 ▸ h1)
  · rcases hbc with h2 | ⟨h2, h2n⟩
    · exact Or.inl (by rw [h1]; exact h2)
    · exact Or.inr ⟨h1.trans h2, h1n.trans h2n⟩

/-- Stable argsort of the similarity vector, carrying the scores. -/
noncomputable def argsortDesc (sims : List ℝ) : List (Nat × ℝ) :=
  List.insertionSort argsortRel sims.enum

/-- `NumpyIndex.search(query_vec, k)`: empty result on an empty index,
else normalize the query, compute all cosine similarities, take the
top-`k` argsort order and attach the stored metadata. -/
noncomputable def NumpyIndex_search (st : NumpyIndexState) (query : Vec)
    (k : Nat) : List NHit :=
  match st.vecs with
  | Option.none => []
  | some stored =>
      if st.metas = [] then []
      else
        let q := normalizeV query
        let sims := stored.map (fun row => dotL row q)
        ((argsortDesc sims).take k).map (fun p =>
          let m := st.metas.getD p.1 ⟨Option.none, Option.none, Option.none, Option.none⟩
          ⟨m.doc_id, m.chunk_id, p.2, m.section_path, m.heading⟩)

/-- C10: normalization is total — the divisor `norm + 1e-12` is strictly
positive for every vector, including the all-zero vector — so `add` and
`search` never divide by zero; and `search` against an index with no
stored vectors (fresh, or with an empty meta list) returns the empty
list rather than raising. -/
theorem c10_normalize_safe_and_empty_search :
    (∀ v : Vec, 0 < normDenom v) ∧
    (∀ (vo : Option (List Vec)) (q : Vec) (k : Nat),
      NumpyIndex_search ⟨vo, []⟩ q k = []) := by
  constructor
  · intro v
    unfold normDenom vecNorm
    have h1 := Real.sqrt_nonneg ((v.map (fun x => x ^ 2)).sum)
    have h2 : (0 : ℝ) < 1 / 1000000000000 := by norm_num
    linarith
  · intro vo q k
    cases vo with
    | none => rfl
    | some stored => simp [NumpyIndex_search]

/-- C1 (amended, provable part): for every index state, query and `k`,
`search` returns at most `k` hits, sorted by similarity score
descending. -/
theorem c1_search_at_most_k_sorted_desc (st : NumpyIndexState) (q : Vec)
    (k : Nat) :
    (NumpyIndex_search st q k).length ≤ k ∧
    (NumpyIndex_search st q k).Sorted (fun a b => b.score ≤ a.score) := by
  obtain ⟨vo, metas⟩ := st
  cases vo with
  | none => simp [NumpyIndex_search, List.Sorted]
  | some stored =>
      by_cases hm : metas = []
      · simp [NumpyIndex_search, hm, List.Sorted]
      · unfold NumpyIndex_search
        simp only [if_neg hm]
        constructor
        · rw [List.length_map]
          exact le_trans (List.length_take_le _ _) (le_refl _)
        · have hs : (argsortDesc ((stored.map
              (fun row => dotL row (normalizeV q))))).Sorted argsortRel :=
            List.sorted_insertionSort argsortRel _
          have hs2 := List.Pairwise.sublist (List.take_sublist k _) hs
          exact List.Pairwise.map _
            (fun a b hab => by
              rcases hab with h | ⟨h, _⟩
              · exact le_of_lt h
              · exact le_of_eq h.symm) hs2

/-- Meta of the first stored vector (id "b", inserted first). -/
def mB : NMeta := ⟨some "db", some "b", Option.none, Option.none⟩

/-- Meta of the second stored vector (id "a", inserted second). -/
def mA : NMeta := ⟨some "da", some "a", Option.none, Option.none⟩

/-- The index state after one successful `add` of two identical vectors
with metas `mB, mA`. -/
noncomputable def s0 : NumpyIndexState :=
  ⟨some ([[1, 0], [1, 0]].map normalizeV), [mB, mA]⟩

/-- The cosine score the two stored vectors share for query `[1, 0]`. -/
noncomputable def tieScore : ℝ :=
  dotL (normalizeV [1, 0]) (normalizeV [1, 0])

/-- The id the claim's tie-break refers to (the hit's chunk id). -/
def claimIdOf (h : NHit) : String := h.chunk_id.getD ""

/-- The hit ordering the claim asserts: score descending with exact-score
ties broken by ascending id. -/
def claimTieBreakSorted (l : List NHit) : Prop :=
  l.Sorted (fun a b =>
    b.score < a.score ∨ (a.score = b.score ∧ claimIdOf a ≤ claimIdOf b))

theorem s0_search_eval :
    NumpyIndex_search s0 [1, 0] 2 =
      [⟨some "db", some "b", tieScore, Option.none, Option.none⟩,
       ⟨some "da", some "a", tieScore, Option.none, Option.none⟩] := by
  unfold NumpyIndex_search s0
  simp only
  rw [if_neg (by simp : ¬([mB, mA] : List NMeta) = [])]
  simp only [List.map_cons, List.map_nil]
  unfold argsortDesc
  simp only [List.enum, List.enumFrom]
  rw [show List.insertionSort argsortRel
      [(0, dotL (normalizeV [1, 0]) (normalizeV ([1, 0] : Vec))),
       (1, dotL (normalizeV [1, 0]) (normalizeV ([1, 0] : Vec)))] =
      [(0, dotL (normalizeV [1, 0]) (normalizeV ([1, 0] : Vec))),
       (1, dotL (normalizeV [1, 0]) (normalizeV ([1, 0] : Vec)))] from ?_]
  · simp [List.getD, mB, mA, tieScore]
  · simp only [List.insertionSort, List.orderedInsert]
    have hr : argsortRel
        (0, dotL (normalizeV [1, 0]) (normalizeV ([1, 0] : Vec)))
        (1, dotL (normalizeV [1, 0]) (normalizeV ([1, 0] : Vec))) := by
      unfold argsortRel
      exact Or.inr ⟨rfl, by norm_num⟩
    rw [if_pos hr]

/-- C1 counterexample: after one successful `add` of two identical
vectors (metas with ids "b" then "a"), searching with the same vector
gives two hits with exactly equal scores in insertion order
`["b", "a"]` — the exact-score tie is NOT broken by ascending id
(`"b" ≤ "a"` fails), refuting the claimed ordering. -/
theorem c1_counterexample_tie_not_broken_by_id :
    NumpyIndex_add ⟨Option.none, []⟩ [[1, 0], [1, 0]] [mB, mA] = .ok s0 ∧
    (NumpyIndex_search s0 [1, 0] 2).map (fun h => (h.chunk_id, h.score)) =
      [(some "b", tieScore), (some "a", tieScore)] ∧
    ¬ claimTieBreakSorted (NumpyIndex_search s0 [1, 0] 2) := by
  refine ⟨?_, ?_, ?_⟩
  · unfold NumpyIndex_add
    rw [if_neg (by simp [is2D] : ¬¬ is2D [[1, 0], [1, 0]] = true)]
    rw [if_neg (by simp :
      ¬ ([mB, mA] : List NMeta).length ≠ ([[1, 0], [1, 0]] : List Vec).length)]
    simp [s0]
  · rw [s0_search_eval]
    simp [mB, mA]
  · rw [s0_search_eval]
    intro hsort
    unfold claimTieBreakSorted at hsort
    have hrel := List.rel_of_pairwise_cons hsort (List.mem_singleton.mpr rfl)
    rcases hrel with h | ⟨h, hle⟩
    · exact absurd h (lt_irrefl _)
    · have : ¬ (claimIdOf ⟨some "db", some "b", tieScore,
          Option.none, Option.none⟩ ≤
        claimIdOf ⟨some "da", some "a", tieScore,
          Option.none, Option.none⟩) := by
        simp [claimIdOf]
        decide
      exact this hle
